import Mathlib

/-!
Verification development for the audio-text-translator pipeline.

The definitions below are a shallow embedding of the repository's Python
source into Lean: enumerations mirror `src/app/models/translation_task.py`,
the binary package codec mirrors `src/app/core/utils/package_file.py`
(`PackageHeader`, `IndexEntry`, `TaskData`, `TranslationPackage.create`),
the task store operations mirror `src/app/service/translation.py`, the
ingress validation mirrors `src/app/schemas/translation.py` together with
`src/app/api/v1/translation.py`, and the worker message handling mirrors
`src/app/core/worker/{audio,translation,packaging}_worker.py`.

Machine integers are modelled as `Nat` with explicit range guards where
the Python `struct` module would raise; byte strings are `List Nat` with
entries below 256; fallible operations return `Option` or `Except`.
-/

set_option maxRecDepth 4000

/-! ## Enumerations (src/app/models/translation_task.py) -/

/-- `TaskStatus` enumeration: pending, to_packing, completed, failed, cancelled. -/
inductive TaskStatus where
  | pending
  | toPacking
  | completed
  | failed
  | cancelled
deriving DecidableEq, Repr

/-- String value of a `TaskStatus` member, as in the Python `str`-enum. -/
def TaskStatus.value : TaskStatus → String
  | .pending => "pending"
  | .toPacking => "to_packing"
  | .completed => "completed"
  | .failed => "failed"
  | .cancelled => "cancelled"

/-- `TaskType` enumeration: audio, text. -/
inductive TaskType where
  | audio
  | text
deriving DecidableEq, Repr

/-- String value of a `TaskType` member. -/
def TaskType.value : TaskType → String
  | .audio => "audio"
  | .text => "text"

/-- Enum lookup by value, `TaskType(s)`: `none` models the `ValueError`. -/
def TaskType.ofString (s : String) : Option TaskType :=
  if s = "audio" then some .audio
  else if s = "text" then some .text
  else none

/-- The ten supported `LanguageCode` enumeration members. -/
inductive LanguageCode where
  | zhCN
  | zhTW
  | enUS
  | jaJP
  | koKR
  | frFR
  | deDE
  | esES
  | ruRU
  | viVN
deriving DecidableEq, Repr

/-- String value of a `LanguageCode` member. -/
def LanguageCode.value : LanguageCode → String
  | .zhCN => "zh-CN"
  | .zhTW => "zh-TW"
  | .enUS => "en-US"
  | .jaJP => "ja-JP"
  | .koKR => "ko-KR"
  | .frFR => "fr-FR"
  | .deDE => "de-DE"
  | .esES => "es-ES"
  | .ruRU => "ru-RU"
  | .viVN => "vi-VN"

/-- Enum lookup by value, `LanguageCode(s)`: `none` models the `ValueError`. -/
def LanguageCode.ofString (s : String) : Option LanguageCode :=
  if s = "zh-CN" then some .zhCN
  else if s = "zh-TW" then some .zhTW
  else if s = "en-US" then some .enUS
  else if s = "ja-JP" then some .jaJP
  else if s = "ko-KR" then some .koKR
  else if s = "fr-FR" then some .frFR
  else if s = "de-DE" then some .deDE
  else if s = "es-ES" then some .esES
  else if s = "ru-RU" then some .ruRU
  else if s = "vi-VN" then some .viVN
  else none

/-- `TextSource` enumeration from `package_file.py`: TEXT and AUDIO. -/
inductive TextSource where
  | text
  | audio
deriving DecidableEq, Repr

/-- String value of a `TextSource` member. -/
def TextSource.value : TextSource → String
  | .text => "TEXT"
  | .audio => "AUDIO"

/-- Enum lookup by value, `TextSource(s)`. -/
def TextSource.ofString (s : String) : Option TextSource :=
  if s = "TEXT" then some .text
  else if s = "AUDIO" then some .audio
  else none

/-! ## Big-endian integer fields of the `struct` formats -/

/-- Big-endian encoding of `v` into `w` bytes (the `B`, `I` and `Q` fields of
the network-order `struct` formats). -/
def beBytes : Nat → Nat → List Nat
  | 0, _ => []
  | w + 1, v => beBytes w (v / 256) ++ [v % 256]

/-- Big-endian value of a byte list. -/
def beVal (l : List Nat) : Nat :=
  l.foldl (fun a b => a * 256 + b) 0

/-! ## PackageHeader (src/app/core/utils/package_file.py, lines 33-62)

The source declares `FORMAT = "!4sBI"`: a 4-byte magic, a 1-byte version
and a 4-byte big-endian unsigned offset, for a total of
`struct.calcsize("!4sBI") = 9` bytes. -/

/-- File header record; its only payload field is the index offset. -/
structure PackageHeader where
  index_offset : Nat
deriving DecidableEq, Repr

/-- The magic bytes `b"MLTR"`. -/
def PackageHeader.MAGIC : List Nat := [77, 76, 84, 82]

/-- The current version number. -/
def PackageHeader.VERSION : Nat := 1

/-- Size of the packed header, `struct.calcsize("!4sBI") = 4 + 1 + 4`. -/
def PackageHeader.SIZE : Nat := 4 + 1 + 4

/-- `PackageHeader.pack`: `struct.pack("!4sBI", MAGIC, VERSION, index_offset)`.
`struct.pack` raises when the `I` field does not fit in 32 bits, modelled
by `none`. -/
def PackageHeader.pack (h : PackageHeader) : Option (List Nat) :=
  if h.index_offset < 2 ^ 32 then
    some (PackageHeader.MAGIC ++ [PackageHeader.VERSION] ++ beBytes 4 h.index_offset)
  else none

/-- `PackageHeader.unpack`: `struct.unpack("!4sBI", data)` (which requires
exactly 9 bytes), then the magic check, then the version check. -/
def PackageHeader.unpack (data : List Nat) : Except String PackageHeader :=
  if data.length ≠ PackageHeader.SIZE then .error "struct.error" else
  if data.take 4 ≠ PackageHeader.MAGIC then .error "invalid file format" else
  if (data.drop 4).headD 0 ≠ PackageHeader.VERSION then .error "unsupported version" else
  .ok ⟨beVal (data.drop 5)⟩

/-! ## Task store (src/app/service/translation.py) -/

/-- Persisted task record; the fields `cancel_task` reads and writes. -/
structure TaskRec where
  task_id : String
  status : TaskStatus
deriving DecidableEq, Repr

/-- The task table, in insertion order; `task_id` is unique in the database
but the model does not need that assumption. -/
abbrev TaskStore := List TaskRec

/-- `TranslationService.get_task`: select the record whose `task_id` matches
(first match; the column is unique). -/
def get_task : TaskStore → String → Option TaskRec
  | [], _ => none
  | t :: rest, id => if t.task_id = id then some t else get_task rest id

/-- Write a status to the record `get_task` would return, leaving every other
record untouched (the ORM mutates the fetched row object in place). -/
def setStatusFirst : TaskStore → String → TaskStatus → TaskStore
  | [], _, _ => []
  | t :: rest, id, st =>
    if t.task_id = id then { t with status := st } :: rest
    else t :: setStatusFirst rest id st

/-- Membership of a status in the terminal set checked by `cancel_task`. -/
def TaskStatus.isTerminal (s : TaskStatus) : Bool :=
  s = TaskStatus.completed ∨ s = TaskStatus.failed ∨ s = TaskStatus.cancelled

/-- `TranslationService.cancel_task` (lines 25-33): fetch the task; return
`False` when it is missing or already in a terminal status; otherwise set
the status to CANCELLED, commit, and return `True`. -/
def cancel_task (db : TaskStore) (id : String) : Bool × TaskStore :=
  match get_task db id with
  | none => (false, db)
  | some t =>
    if t.status.isTerminal then (false, db)
    else (true, setStatusFirst db id TaskStatus.cancelled)


/-! ## Worker message handling
(src/app/core/worker/audio_worker.py, translation_worker.py,
packaging_worker.py)

A consumed broker message is modelled together with the environment its
processing observes: the result of `QueuedTask.model_validate` (reduced to
the task id the message carries, `none` on validation failure), the result
of the database lookup `translation_service.get_task`, and whether the
stage's external work, database update and publish all succeed. -/

/-- One consumed message plus the environment its handler observes. -/
structure ConsumedMsg where
  offset : Nat
  decoded : Option String
  stored : Option TaskRec
  processOk : Bool
deriving DecidableEq, Repr

/-- Effects of handling one message in the audio or translation worker. -/
structure StepEffects where
  committed : Bool
  updatedStatus : Option TaskStatus
  published : Bool
  rolledBack : Bool
deriving DecidableEq, Repr

/-- The effects of a drop-and-commit: offset committed, no task mutation,
no publish. -/
def StepEffects.dropCommit : StepEffects :=
  { committed := true, updatedStatus := none, published := false, rolledBack := false }

/-- `audio_worker.process_single_message` (lines 110-153): decode failure,
missing task, or status ≠ PENDING each commit and return without further
effects; a successful run updates the task to TO_PACKING, publishes to the
package topic and commits; an exception rolls the session back without
committing. -/
def audio_process_single_message (m : ConsumedMsg) : StepEffects :=
  match m.decoded with
  | none => StepEffects.dropCommit
  | some _ =>
    match m.stored with
    | none => StepEffects.dropCommit
    | some t =>
      if t.status ≠ TaskStatus.pending then StepEffects.dropCommit
      else if m.processOk then
        { committed := true, updatedStatus := some TaskStatus.toPacking,
          published := true, rolledBack := false }
      else
        { committed := false, updatedStatus := none,
          published := false, rolledBack := true }

/-- `translation_worker.process_single_message` (lines 80-117): the same
skeleton as the audio worker, expecting status PENDING. -/
def translation_process_single_message (m : ConsumedMsg) : StepEffects :=
  match m.decoded with
  | none => StepEffects.dropCommit
  | some _ =>
    match m.stored with
    | none => StepEffects.dropCommit
    | some t =>
      if t.status ≠ TaskStatus.pending then StepEffects.dropCommit
      else if m.processOk then
        { committed := true, updatedStatus := some TaskStatus.toPacking,
          published := true, rolledBack := false }
      else
        { committed := false, updatedStatus := none,
          published := false, rolledBack := true }

/-- Effects of `packaging_worker.process_single_message`, which returns the
message offset on success and `None` otherwise instead of committing. -/
structure PackEffects where
  returnedOffset : Option Nat
  updatedStatus : Option TaskStatus
  wroteFile : Bool
deriving DecidableEq, Repr

/-- `packaging_worker.process_single_message` (lines 93-118): decode failure,
missing task, or status ≠ TO_PACKING return `None` with no effects; a
successful run writes the package file, updates the task to COMPLETED and
returns the offset; an exception rolls back and returns `None`. No branch
commits an offset. -/
def packaging_process_single_message (m : ConsumedMsg) : PackEffects :=
  match m.decoded with
  | none => { returnedOffset := none, updatedStatus := none, wroteFile := false }
  | some _ =>
    match m.stored with
    | none => { returnedOffset := none, updatedStatus := none, wroteFile := false }
    | some t =>
      if t.status ≠ TaskStatus.toPacking then
        { returnedOffset := none, updatedStatus := none, wroteFile := false }
      else if m.processOk then
        { returnedOffset := some m.offset, updatedStatus := some TaskStatus.completed,
          wroteFile := true }
      else
        { returnedOffset := none, updatedStatus := none, wroteFile := false }

/-- The offsets collected from the per-message results
(`offsets = [offset for offset in done if offset is not None]`). -/
def successOffsets (results : List (Option Nat)) : List Nat :=
  results.filterMap id

/-- `packaging_worker.process_partition_messages` (lines 120-140): run every
message of the partition batch, collect the offsets of the successful ones,
and if any succeeded commit `max(offsets) + 1`; otherwise commit nothing. -/
def process_partition_messages (msgs : List ConsumedMsg) : Option Nat :=
  match successOffsets (msgs.map fun m => (packaging_process_single_message m).returnedOffset) with
  | [] => none
  | o :: os => some (os.foldl Nat.max o + 1)

/-- Committed offset the specification demands for a partition batch: the
largest `o` such that every message of the batch with offset ≤ `o`
succeeded, plus one (and no commit when no such `o` covers any message).
Modelled from the spec: "The implementation MUST commit the largest offset
`o` such that every message with offset ≤ `o` in that partition succeeded."
Concretely, with `F` the set of offsets of failed messages, any committed
position must stay at or below `min F`. -/
def specCommitCeiling (msgs : List ConsumedMsg) : Option Nat :=
  ((msgs.filter fun m => (packaging_process_single_message m).returnedOffset = none).map
    (fun m => m.offset)).min?

/-! ## Ingress validation
(src/app/schemas/translation.py and src/app/api/v1/translation.py) -/

/-- A request body for POST /v1/tasks before validation: raw strings where
the schema declares enumerations. -/
structure RawCreateTaskRequest where
  type : String
  source_file : Option String
  reference_text : Option String
  text : Option String
  target_languages : List String
deriving DecidableEq, Repr

/-- `CreateTaskRequest` after pydantic validation. -/
structure CreateTaskRequest where
  type : TaskType
  source_file : Option String
  reference_text : Option String
  text : Option String
  target_languages : List LanguageCode
deriving DecidableEq, Repr

/-- Coercion of the `target_languages` entries into the enum, failing on the
first entry outside it (the `list[LanguageCode]` field validation). -/
def mapOfString : List String → Option (List LanguageCode)
  | [] => some []
  | x :: xs =>
    match LanguageCode.ofString x with
    | none => none
    | some v => (mapOfString xs).map (fun vs => v :: vs)

/-- Pydantic validation of `CreateTaskRequest`: `type` must be a `TaskType`
value and every element of `target_languages` must be a `LanguageCode`
value; the three optional string fields default to `None`. These are the
only constraints the schema declares. -/
def CreateTaskRequest.validate (r : RawCreateTaskRequest) : Option CreateTaskRequest :=
  match TaskType.ofString r.type, mapOfString r.target_languages with
  | some ty, some langs => some ⟨ty, r.source_file, r.reference_text, r.text, langs⟩
  | _, _ => none

/-- Externally visible effects of a POST /v1/tasks call. -/
structure IngressEffects where
  persisted : Bool
  publishedTopic : Option String
deriving DecidableEq, Repr

/-- Default topic names from `src/app/core/config.py`. -/
def KAFKA_TRANSLATION_TOPIC : String := "text_translation"

/-- Default audio topic name from `src/app/core/config.py`. -/
def KAFKA_AUDIO_TOPIC : String := "audio_processing"

/-- `create_translation_task` (api/v1/translation.py, lines 13-29) composed
with `TranslationService.create_task` (service/translation.py, lines
35-65): a request failing pydantic validation is answered 422 before the
handler runs (`none`, no persist, no publish); an accepted request is
persisted as PENDING and published to the translation or audio topic
according to its type. -/
def create_translation_task (r : RawCreateTaskRequest) : Option IngressEffects :=
  match CreateTaskRequest.validate r with
  | none => none
  | some req =>
    some { persisted := true,
           publishedTopic :=
             if req.type = TaskType.text then some KAFKA_TRANSLATION_TOPIC
             else if req.type = TaskType.audio then some KAFKA_AUDIO_TOPIC
             else none }

/-! ## Python literal values and TaskData
(src/app/core/utils/package_file.py, lines 93-136)

`TaskData.pack` serialises `str(data).encode()` compressed with zlib, and
`TaskData.unpack` applies `eval` to the decompressed text. The values that
flow through this channel are Python literals built from strings and
dicts, modelled by `PyVal` (a dict is a spine of key/value pairs in
insertion order). `zlib` is lossless and CPython guarantees
`eval(str(x)) = x` for these literal values, so the compressed byte
transport is modelled as the identity on `PyVal`; the textual form
produced by `str()` is modelled separately by `pyRepr`. -/

/-- Python literal values exchanged by the payload codec: strings and
string-keyed dicts (a dict is `consDict k v rest` in insertion order). -/
inductive PyVal where
  | str : String → PyVal
  | nilDict : PyVal
  | consDict : String → PyVal → PyVal → PyVal
deriving DecidableEq, Repr

/-- Dict item lookup, `d[key]`; `none` models `KeyError` (and indexing a
non-dict). -/
def PyVal.lookup : PyVal → String → Option PyVal
  | .str _, _ => none
  | .nilDict, _ => none
  | .consDict k v rest, key => if k = key then some v else rest.lookup key

/-- CPython `repr` of a `str` value, on the printable fragment exercised
here: the quote is a single quote unless the string contains one and no
double quote; backslash, the chosen quote, and the three common control
characters are escaped. (CPython additionally hex-escapes other
non-printable code points, which none of the evaluated payloads contain.) -/
def pyReprStr (s : String) : String :=
  let q : Char := if s.data.any (fun c => c = Char.ofNat 39)
      && !(s.data.any (fun c => c = Char.ofNat 34))
    then Char.ofNat 34 else Char.ofNat 39
  let esc : Char → String := fun c =>
    if c = Char.ofNat 92 then "\\\\"
    else if c = q then "\\" ++ q.toString
    else if c = Char.ofNat 10 then "\\n"
    else if c = Char.ofNat 13 then "\\r"
    else if c = Char.ofNat 9 then "\\t"
    else c.toString
  q.toString ++ String.join (s.data.map esc) ++ q.toString

/-- Fuel-indexed renderer behind `pyRepr`; in value mode (`body = false`) it
renders a literal, in body mode (`body = true`) it renders the
comma-separated `key: value` items of a dict spine. -/
def pyReprFuel : Nat → Bool → PyVal → String
  | 0, _, _ => ""
  | _ + 1, false, .str s => pyReprStr s
  | _ + 1, false, .nilDict => "\x7b\x7d"
  | fuel + 1, false, .consDict k v rest =>
    "\x7b" ++ pyReprFuel fuel true (.consDict k v rest) ++ "\x7d"
  | fuel + 1, true, .consDict k v rest =>
    pyReprStr k ++ ": " ++ pyReprFuel fuel false v ++
      (match rest with
       | .nilDict => ""
       | r => ", " ++ pyReprFuel fuel true r)
  | _ + 1, true, _ => ""

/-- Structural size of a literal, used to provision fuel. -/
def PyVal.size : PyVal → Nat
  | .str _ => 1
  | .nilDict => 1
  | .consDict _ v rest => 1 + v.size + rest.size

/-- CPython `str`/`repr` of a literal value: `repr` for strings,
`{k!r}: {v!r}` items joined by `", "` inside braces for dicts. -/
def pyRepr (v : PyVal) : String :=
  pyReprFuel (2 * v.size + 1) false v

/-- In-memory task data: the task id and the two insertion-ordered
translation dicts created by `TaskData.__init__`, one per `TextSource`
(`add_translation` can reach no other key). -/
structure TaskData where
  task_id : String
  textTranslations : List (LanguageCode × String)
  audioTranslations : List (LanguageCode × String)
deriving DecidableEq, Repr

/-- Python dict assignment `d[k] = v`: replace in place when the key is
present, else append. -/
def dictSet {α β : Type} [DecidableEq α] : List (α × β) → α → β → List (α × β)
  | [], k, v => [(k, v)]
  | (k', v') :: rest, k, v =>
    if k' = k then (k, v) :: rest else (k', v') :: dictSet rest k v

/-- `TaskData.add_translation`: `self.translations[source][language] = text`. -/
def TaskData.add_translation (t : TaskData) (src : TextSource)
    (lang : LanguageCode) (txt : String) : TaskData :=
  match src with
  | .text => { t with textTranslations := dictSet t.textTranslations lang txt }
  | .audio => { t with audioTranslations := dictSet t.audioTranslations lang txt }

/-- Read access used by `add_translation`'s target dict. -/
def TaskData.getDict (t : TaskData) : TextSource → List (LanguageCode × String)
  | .text => t.textTranslations
  | .audio => t.audioTranslations

/-- Replace one of the two translation dicts. -/
def TaskData.setDict (t : TaskData) : TextSource → List (LanguageCode × String) → TaskData
  | .text, d => { t with textTranslations := d }
  | .audio, d => { t with audioTranslations := d }

/-- The inner dict `{lang.value: text for lang, text in translations.items()}`. -/
def langDict (l : List (LanguageCode × String)) : PyVal :=
  l.foldr (fun p acc => PyVal.consDict p.1.value (PyVal.str p.2) acc) PyVal.nilDict

/-- `TaskData.pack` (lines 116-125): the serialised value
`{"task_id": ..., "translations": {source.value: {lang.value: text}}}`;
the `zlib.compress(str(data).encode(), level=9)` transport around it is
modelled as the identity on the literal (see the section comment). -/
def TaskData.pack (t : TaskData) : PyVal :=
  .consDict "task_id" (.str t.task_id)
    (.consDict "translations"
      (.consDict "TEXT" (langDict t.textTranslations)
        (.consDict "AUDIO" (langDict t.audioTranslations) .nilDict))
      .nilDict)

/-- The exact text `str(data)` that `TaskData.pack` encodes and compresses:
the CPython repr of the payload dict. -/
def TaskData.payloadRepr (t : TaskData) : String :=
  pyRepr t.pack

/-- Inner loop of `TaskData.unpack`: `for lang_str, text in translations.items():
task.add_translation(source, LanguageCode(lang_str), text)`. A failing
`LanguageCode` lookup raises (`none`); a non-string item value cannot occur
on `pack` output and is conservatively mapped to `none`. -/
def unpackLangs : PyVal → TextSource → TaskData → Option TaskData
  | .nilDict, _, t => some t
  | .consDict langStr (PyVal.str txt) rest, src, t =>
    match LanguageCode.ofString langStr with
    | none => none
    | some lang => unpackLangs rest src (t.add_translation src lang txt)
  | _, _, _ => none

/-- Outer loop of `TaskData.unpack`: `for source_str, translations in
decompressed["translations"].items(): source = TextSource(source_str); ...`. -/
def unpackSources : PyVal → TaskData → Option TaskData
  | .nilDict, t => some t
  | .consDict srcStr inner rest, t =>
    match TextSource.ofString srcStr with
    | none => none
    | some src =>
      match unpackLangs inner src t with
      | none => none
      | some t' => unpackSources rest t'
  | .str _, _ => none

/-- `TaskData.unpack` (lines 127-136): evaluate the decompressed literal
(modelled by the `PyVal` argument), construct `cls(decompressed["task_id"])`
with both translation dicts empty, then replay every stored translation. -/
def TaskData.unpack (v : PyVal) : Option TaskData :=
  match v.lookup "task_id" with
  | some (.str id) =>
    match v.lookup "translations" with
    | some trs => unpackSources trs ⟨id, [], []⟩
    | _ => none
  | _ => none

/-! ## UTF-8

`IndexEntry.pack` calls `str.encode()` and `IndexEntry.unpack` calls
`bytes.decode()`; both default to strict UTF-8. The encoder and the strict
decoder (rejecting truncated sequences, stray continuation bytes, overlong
forms, surrogates and values above U+10FFFF, as CPython does) are embedded
below over `List Nat` byte lists. -/

/-- UTF-8 encoding of one scalar value. -/
def utf8EncodeChar (c : Char) : List Nat :=
  let n := c.toNat
  if n < 0x80 then [n]
  else if n < 0x800 then [0xC0 + n / 64, 0x80 + n % 64]
  else if n < 0x10000 then [0xE0 + n / 4096, 0x80 + n / 64 % 64, 0x80 + n % 64]
  else [0xF0 + n / 262144, 0x80 + n / 4096 % 64, 0x80 + n / 64 % 64, 0x80 + n % 64]

/-- UTF-8 encoding of a character list. -/
def utf8EncodeList : List Char → List Nat
  | [] => []
  | c :: cs => utf8EncodeChar c ++ utf8EncodeList cs

/-- `str.encode()`: the UTF-8 bytes of a string. -/
def utf8Encode (s : String) : List Nat := utf8EncodeList s.data

/-- Whether a byte is a UTF-8 continuation byte `10xxxxxx`. -/
def isCont (b : Nat) : Prop := 0x80 ≤ b ∧ b < 0xC0

instance (b : Nat) : Decidable (isCont b) := by
  unfold isCont
  infer_instance

/-- Strict decoding of one UTF-8 sequence from the front of a byte list,
returning the scalar and the remaining bytes. Lead bytes `C0`/`C1` and
`F5`-`FF` are invalid; overlong encodings, surrogates and values above
U+10FFFF are rejected. -/
def decodeOne : List Nat → Option (Char × List Nat)
  | [] => none
  | b :: rest =>
    if b < 0x80 then some (Char.ofNat b, rest)
    else if b < 0xC2 then none
    else if b < 0xE0 then
      match rest with
      | b2 :: rest2 =>
        if isCont b2 then some (Char.ofNat ((b - 0xC0) * 64 + (b2 - 0x80)), rest2)
        else none
      | [] => none
    else if b < 0xF0 then
      match rest with
      | b2 :: b3 :: rest3 =>
        if isCont b2 ∧ isCont b3
            ∧ ¬(b = 0xE0 ∧ b2 < 0xA0)
            ∧ ¬(b = 0xED ∧ 0xA0 ≤ b2) then
          some (Char.ofNat ((b - 0xE0) * 4096 + (b2 - 0x80) * 64 + (b3 - 0x80)), rest3)
        else none
      | _ => none
    else if b < 0xF5 then
      match rest with
      | b2 :: b3 :: b4 :: rest4 =>
        if isCont b2 ∧ isCont b3 ∧ isCont b4
            ∧ ¬(b = 0xF0 ∧ b2 < 0x90)
            ∧ ¬(b = 0xF4 ∧ 0x90 ≤ b2) then
          some (Char.ofNat ((b - 0xF0) * 262144 + (b2 - 0x80) * 4096
            + (b3 - 0x80) * 64 + (b4 - 0x80)), rest4)
        else none
      | _ => none
    else none

/-- Fuel-indexed strict UTF-8 decoder; each step consumes at least one byte,
so fuel equal to the byte count suffices. -/
def utf8DecodeFuel : Nat → List Nat → Option (List Char)
  | _, [] => some []
  | 0, _ :: _ => none
  | fuel + 1, b :: rest =>
    match decodeOne (b :: rest) with
    | none => none
    | some (c, rest') => (utf8DecodeFuel fuel rest').map (fun cs => c :: cs)

/-- `bytes.decode()`: strict UTF-8 decoding of a whole byte list. -/
def utf8Decode (l : List Nat) : Option (List Char) := utf8DecodeFuel l.length l

/-- UTF-8 byte length of a character list. -/
def utf8LenList (cs : List Char) : Nat := (utf8EncodeList cs).length

/-- UTF-8 byte length of a string, `len(s.encode())`. -/
def utf8Len (s : String) : Nat := (utf8Encode s).length

/-- The NUL character used for padding and stripped by `unpack`. -/
def nulChar : Char := Char.ofNat 0

/-- Drop trailing NUL characters. -/
def dropTrailNul (l : List Char) : List Char :=
  (l.reverse.dropWhile (fun c => c = nulChar)).reverse

/-- Python `str.strip("\x00")`: remove NUL characters from both ends. -/
def stripNulChars (l : List Char) : List Char :=
  dropTrailNul (l.dropWhile (fun c => c = nulChar))

/-! ## IndexEntry and the package writer
(src/app/core/utils/package_file.py, lines 65-90 and 139-208) -/

/-- Index entry record: task id, data offset, data size. -/
structure IndexEntry where
  task_id : String
  offset : Nat
  size : Nat
deriving DecidableEq, Repr

/-- Size of a packed index entry, `struct.calcsize("!36sIQ") = 36 + 4 + 8`. -/
def IndexEntry.SIZE : Nat := 36 + 4 + 8

/-- The `36s` field of `struct.pack`: the byte string truncated to 36 bytes
or padded with NUL bytes up to 36 bytes. -/
def pad36 (b : List Nat) : List Nat :=
  b.take 36 ++ List.replicate (36 - b.length) 0

/-- `IndexEntry.pack` (lines 82-84):
`struct.pack("!36sIQ", task_id.encode(), size, offset)`; `struct.pack`
raises when `size` exceeds 32 bits or `offset` exceeds 64 bits. -/
def IndexEntry.pack (e : IndexEntry) : Option (List Nat) :=
  if e.size < 2 ^ 32 ∧ e.offset < 2 ^ 64 then
    some (pad36 (utf8Encode e.task_id) ++ beBytes 4 e.size ++ beBytes 8 e.offset)
  else none

/-- `IndexEntry.unpack` (lines 86-90): `struct.unpack("!36sIQ", data)`
(exactly 48 bytes), then `task_id.decode().strip("\x00")`; a UTF-8 decode
error raises (`none`). -/
def IndexEntry.unpack (data : List Nat) : Option IndexEntry :=
  if data.length = IndexEntry.SIZE then
    match utf8Decode (data.take 36) with
    | none => none
    | some cs =>
      some ⟨String.mk (stripNulChars cs),
            beVal (data.drop 40),
            beVal ((data.drop 36).take 4)⟩
  else none

/-- Pack an index entry and unpack the resulting bytes. -/
def IndexEntry.roundTrip (e : IndexEntry) : Option IndexEntry :=
  (IndexEntry.pack e).bind IndexEntry.unpack

/-- File operations `TranslationPackage.create` performs, plus the rename
operation the specification's write protocol would need. -/
inductive FsOp where
  | openWrite (path : String)
  | write (len : Nat)
  | seek (pos : Nat)
  | rename (src : String) (dst : String)
deriving DecidableEq, Repr

/-- Result of a `create` call: the ordered file operations, the index
entries written to the index region in order, the in-memory index
afterwards, and the final index offset. -/
structure CreateResult where
  ops : List FsOp
  writtenIndex : List IndexEntry
  index : List (String × IndexEntry)
  indexOffset : Nat
deriving DecidableEq, Repr

/-- The task-writing loop of `create` (lines 195-199): for each task, record
an `IndexEntry` at the current position in `self.index` and append the
packed payload. The compressed payload length `len(task.pack())` is not
computable inside the embedding, so the loop is parameterised by it. -/
def createLoop (size : TaskData → Nat) :
    List TaskData → Nat → List (String × IndexEntry) → List FsOp →
    Nat × List (String × IndexEntry) × List FsOp
  | [], pos, idx, ops => (pos, idx, ops)
  | task :: rest, pos, idx, ops =>
    createLoop size rest (pos + size task)
      (dictSet idx task.task_id ⟨task.task_id, pos, size task⟩)
      (ops ++ [.write (size task)])

/-- `TranslationPackage.create` (lines 188-208): open `self.file_path` for
writing, write a placeholder header, append every task payload while
extending `self.index`, write `self.index.values()` as the index region,
then seek to 0 and rewrite the header. `index₀` is the in-memory index the
object holds when `create` is called (empty on a fresh object). -/
def TranslationPackage.create (size : TaskData → Nat) (filePath : String)
    (index₀ : List (String × IndexEntry)) (tasks : List TaskData) : CreateResult :=
  let r := createLoop size tasks PackageHeader.SIZE index₀
    [FsOp.openWrite filePath, FsOp.write PackageHeader.SIZE]
  { ops := r.2.2 ++ r.2.1.map (fun _ => FsOp.write IndexEntry.SIZE)
      ++ [FsOp.seek 0, FsOp.write PackageHeader.SIZE]
    writtenIndex := r.2.1.map Prod.snd
    index := r.2.1
    indexOffset := r.1 }

/-- Write protocol asserted by the specification for `create`. Modelled from
the spec: "no reader may observe a partially written file (create to a temp
path, rename into place)" — some temporary path distinct from the
destination is opened for writing and later renamed onto the destination. -/
def writesViaTempAndRename (res : CreateResult) (dst : String) : Prop :=
  ∃ tmp, tmp ≠ dst ∧ FsOp.openWrite tmp ∈ res.ops ∧ FsOp.rename tmp dst ∈ res.ops

/-- The `(key, IndexEntry)` pairs `createLoop` inserts for a task list
starting at byte position `pos`: one entry per task, in task order, at
cumulative payload offsets. -/
def builtEntries (size : TaskData → Nat) : List TaskData → Nat → List (String × IndexEntry)
  | [], _ => []
  | t :: rest, pos =>
    (t.task_id, ⟨t.task_id, pos, size t⟩) :: builtEntries size rest (pos + size t)

/-- A message is undeliverable for a stage expecting status `expected` when
it fails `QueuedTask` validation, references a task absent from the store,
or references a task whose status differs from `expected`. -/
def undeliverable (expected : TaskStatus) (m : ConsumedMsg) : Prop :=
  m.decoded = none ∨ m.stored = none ∨ ∃ t, m.stored = some t ∧ t.status ≠ expected

/-! ## Supporting lemmas -/

@[simp] theorem taskType_ofString_value (t : TaskType) :
    TaskType.ofString t.value = some t := by
  cases t <;> rfl

@[simp] theorem languageCode_ofString_value (l : LanguageCode) :
    LanguageCode.ofString l.value = some l := by
  cases l <;> rfl

@[simp] theorem textSource_ofString_value (s : TextSource) :
    TextSource.ofString s.value = some s := by
  cases s <;> rfl

theorem beVal_append_singleton (l : List Nat) (b : Nat) :
    beVal (l ++ [b]) = beVal l * 256 + b := by
  simp [beVal, List.foldl_append]

@[simp] theorem beBytes_length (w v : Nat) : (beBytes w v).length = w := by
  induction w generalizing v with
  | zero => rfl
  | succ w ih => simp [beBytes, ih]

theorem beVal_beBytes (w v : Nat) (h : v < 256 ^ w) :
    beVal (beBytes w v) = v := by
  induction w generalizing v with
  | zero =>
    interval_cases v
    rfl
  | succ w ih =>
    have hv : v / 256 < 256 ^ w := by
      rw [Nat.div_lt_iff_lt_mul (by norm_num)]
      calc v < 256 ^ (w + 1) := h
        _ = 256 ^ w * 256 := by ring
    rw [beBytes, beVal_append_singleton, ih _ hv]
    omega

theorem get_task_setStatusFirst (db : TaskStore) (id : String) (st : TaskStatus) :
    get_task (setStatusFirst db id st) id =
      (get_task db id).map (fun t => { t with status := st }) := by
  induction db with
  | nil => rfl
  | cons t rest ih =>
    by_cases h : t.task_id = id <;> simp [get_task, setStatusFirst, h, ih]

theorem mapOfString_eq_none (xs : List String) :
    mapOfString xs = none ↔ ∃ l ∈ xs, LanguageCode.ofString l = none := by
  induction xs with
  | nil => simp [mapOfString]
  | cons x xs ih =>
    cases h : LanguageCode.ofString x with
    | none => simp [mapOfString, h]
    | some v =>
      cases h2 : mapOfString xs with
      | none =>
        simp only [mapOfString, h, h2, Option.map_none]
        constructor
        · intro _
          obtain ⟨l, hl, hn⟩ := ih.mp h2
          exact ⟨l, List.mem_cons_of_mem _ hl, hn⟩
        · intro _
          rfl
      | some ys =>
        simp only [mapOfString, h, h2, Option.map_some]
        constructor
        · intro hc
          cases hc
        · rintro ⟨l, hl, hnone⟩
          cases hl with
          | head =>
            rw [h] at hnone
            cases hnone
          | tail _ hl =>
            exact absurd (ih.mpr ⟨l, hl, hnone⟩) (by simp [h2])

/-- C1: the header the codec writes and reads is `struct` format `"!4sBI"`:
9 bytes, with the index offset a 32-bit big-endian field — not the 16-byte
layout with a 64-bit offset the claim (and the class docstring) states. An
offset needing 64 bits is not packable at all, while the magic and version
rejections hold as claimed. -/
theorem packageHeader_nine_bytes_u32_offset :
    (PackageHeader.pack ⟨0⟩).map List.length = some PackageHeader.SIZE
    ∧ PackageHeader.SIZE = 9
    ∧ PackageHeader.SIZE ≠ 16
    ∧ PackageHeader.pack ⟨2 ^ 32⟩ = none
    ∧ PackageHeader.unpack ([78, 76, 84, 82, 1] ++ beBytes 4 0) =
        Except.error "invalid file format"
    ∧ PackageHeader.unpack (PackageHeader.MAGIC ++ [2] ++ beBytes 4 0) =
        Except.error "unsupported version" := by
  refine ⟨rfl, rfl, by decide, ?_, rfl, rfl⟩
  simp [PackageHeader.pack]

/-- C2 (divergence evidence): in a partition batch with a failed message at
offset 5 and a succeeded one at offset 6, the packaging worker commits
`max(successful) + 1 = 7`, advancing past the failed offset 5 even though
the specification's ceiling for this batch is 5. -/
theorem packaging_commit_skips_failed_offset :
    process_partition_messages
      [⟨5, some "t", some ⟨"t", TaskStatus.toPacking⟩, false⟩,
       ⟨6, some "u", some ⟨"u", TaskStatus.toPacking⟩, true⟩] = some 7
    ∧ specCommitCeiling
      [⟨5, some "t", some ⟨"t", TaskStatus.toPacking⟩, false⟩,
       ⟨6, some "u", some ⟨"u", TaskStatus.toPacking⟩, true⟩] = some 5
    ∧ ¬ 7 ≤ 5 := by
  refine ⟨rfl, rfl, by decide⟩

/-- C3 (divergence evidence): the text `TaskData.pack` compresses is the
CPython `repr` of the in-memory dict — single-quoted Python literal
syntax, decoded on the other side by `eval` — not a length-prefixed or
JSON-like self-describing encoding. -/
theorem taskData_payload_is_python_repr :
    TaskData.payloadRepr ⟨"task-1", [(LanguageCode.zhCN, "hello")], []⟩ =
      "\x7b\x27task_id\x27: \x27task-1\x27, \x27translations\x27: \x7b\x27TEXT\x27: \x7b\x27zh-CN\x27: \x27hello\x27\x7d, \x27AUDIO\x27: \x7b\x7d\x7d\x7d" := by
  decide

/-- C4 (counterexample): a malformed message at offset 3 consumed by the
packaging worker is dropped with no commit at all — `None` is returned for
it and a batch containing only this message commits nothing, while the
claim requires its offset to be committed. -/
theorem packaging_drop_without_commit :
    packaging_process_single_message ⟨3, none, none, true⟩ =
      { returnedOffset := none, updatedStatus := none, wroteFile := false }
    ∧ process_partition_messages [⟨3, none, none, true⟩] = none := by
  exact ⟨rfl, rfl⟩

/-- C4 (amended): for every undeliverable message, the audio and
translation workers drop-and-commit with no task mutation and no publish;
the packaging worker likewise performs no mutation and no file write, but
returns `None` instead of committing, so a batch of undeliverable messages
commits no offset. -/
theorem undeliverable_drop_semantics (m : ConsumedMsg) :
    (undeliverable TaskStatus.pending m →
      audio_process_single_message m = StepEffects.dropCommit
      ∧ translation_process_single_message m = StepEffects.dropCommit)
    ∧ (undeliverable TaskStatus.toPacking m →
      packaging_process_single_message m =
        { returnedOffset := none, updatedStatus := none, wroteFile := false }
      ∧ process_partition_messages [m] = none) := by
  obtain ⟨o, d, s, p⟩ := m
  constructor
  · rintro (h | h | ⟨t, ht, hs⟩)
    · cases h
      exact ⟨rfl, rfl⟩
    · cases h
      cases d <;>
        simp [audio_process_single_message, translation_process_single_message,
          StepEffects.dropCommit]
    · cases ht
      cases d <;>
        simp [audio_process_single_message, translation_process_single_message,
          StepEffects.dropCommit, hs]
  · rintro (h | h | ⟨t, ht, hs⟩)
    · cases h
      exact ⟨rfl, rfl⟩
    · cases h
      cases d <;>
        simp [packaging_process_single_message, process_partition_messages,
          successOffsets]
    · cases ht
      cases d <;>
        simp [packaging_process_single_message, process_partition_messages,
          successOffsets, hs]

theorem undeliverable_drop_semantics_witness :
    audio_process_single_message ⟨0, none, none, true⟩ = StepEffects.dropCommit
    ∧ process_partition_messages
        [⟨1, some "t", some ⟨"t", TaskStatus.completed⟩, true⟩] = none :=
  ⟨((undeliverable_drop_semantics ⟨0, none, none, true⟩).1 (Or.inl rfl)).1,
   ((undeliverable_drop_semantics ⟨1, some "t", some ⟨"t", TaskStatus.completed⟩, true⟩).2
      (Or.inr (Or.inr ⟨⟨"t", TaskStatus.completed⟩, rfl, by decide⟩))).2⟩

/-- C5 (counterexample): a TEXT request with empty `target_languages`, an
AUDIO request without `source_file`, and a TEXT request without `text` all
pass validation and are persisted and published, while the claim requires
each to be rejected. -/
theorem ingress_accepts_invalid_requests :
    create_translation_task ⟨"text", none, none, some "hi", []⟩ =
      some { persisted := true, publishedTopic := some KAFKA_TRANSLATION_TOPIC }
    ∧ create_translation_task ⟨"audio", none, none, none, ["zh-CN"]⟩ =
      some { persisted := true, publishedTopic := some KAFKA_AUDIO_TOPIC }
    ∧ create_translation_task ⟨"text", none, none, none, ["zh-CN"]⟩ =
      some { persisted := true, publishedTopic := some KAFKA_TRANSLATION_TOPIC } := by
  exact ⟨rfl, rfl, rfl⟩

/-- C5 (amended): POST /v1/tasks rejects a request, without persisting or
publishing, exactly when its `type` is outside the `TaskType` enum or some
entry of `target_languages` is outside the `LanguageCode` enum; every
accepted request — including one with empty `target_languages`, an AUDIO
request without `source_file`, or a TEXT request without `text` — is
persisted and published to the stage topic for its type. -/
theorem ingress_validation_characterisation (r : RawCreateTaskRequest) :
    (create_translation_task r = none ↔
      TaskType.ofString r.type = none
      ∨ ∃ l ∈ r.target_languages, LanguageCode.ofString l = none)
    ∧ (∀ eff, create_translation_task r = some eff →
        eff.persisted = true ∧ eff.publishedTopic ≠ none) := by
  constructor
  · rw [create_translation_task, CreateTaskRequest.validate]
    cases h : TaskType.ofString r.type with
    | none => simp [h]
    | some ty =>
      cases h2 : mapOfString r.target_languages with
      | none => simp [h, h2, (mapOfString_eq_none _).mp h2]
      | some langs =>
        simp only [h, h2]
        constructor
        · intro hc
          cases hc
        · rintro (hc | hc)
          · cases hc
          · exact absurd ((mapOfString_eq_none _).mpr hc) (by simp [h2])
  · intro eff heff
    rw [create_translation_task] at heff
    cases h : CreateTaskRequest.validate r with
    | none => rw [h] at heff; cases heff
    | some req =>
      rw [h] at heff
      cases heff
      refine ⟨rfl, ?_⟩
      cases req.type <;> simp

theorem ingress_validation_characterisation_witness :
    create_translation_task ⟨"bogus", none, none, none, []⟩ = none :=
  (ingress_validation_characterisation ⟨"bogus", none, none, none, []⟩).1.mpr
    (Or.inl rfl)

/-- C7: `cancel_task` returns `True` and sets the status to CANCELLED
exactly when the task exists with a status outside the terminal set
COMPLETED/FAILED/CANCELLED; otherwise it returns `False` and the store is
unchanged. -/
theorem cancel_task_cas (db : TaskStore) (id : String) :
    ((cancel_task db id).fst = true ↔
      ∃ t, get_task db id = some t ∧ t.status.isTerminal = false)
    ∧ ((cancel_task db id).fst = false → (cancel_task db id).snd = db)
    ∧ (∀ t, get_task db id = some t → t.status.isTerminal = false →
        get_task (cancel_task db id).snd id =
          some { t with status := TaskStatus.cancelled }) := by
  refine ⟨?_, ?_, ?_⟩
  · rw [cancel_task]
    cases h : get_task db id with
    | none => simp
    | some t =>
      by_cases ht : t.status.isTerminal <;> simp_all
  · rw [cancel_task]
    cases h : get_task db id with
    | none => simp
    | some t =>
      by_cases ht : t.status.isTerminal <;> simp_all
  · intro t h ht
    simp [cancel_task, h, ht, get_task_setStatusFirst]

theorem cancel_task_cas_witness :
    (cancel_task [⟨"a", TaskStatus.pending⟩] "a").fst = true :=
  (cancel_task_cas [⟨"a", TaskStatus.pending⟩] "a").1.mpr
    ⟨⟨"a", TaskStatus.pending⟩, rfl, by decide⟩

theorem dictSet_append {α β : Type} [DecidableEq α] (d : List (α × β)) (k : α) (v : β)
    (h : k ∉ d.map Prod.fst) : dictSet d k v = d ++ [(k, v)] := by
  induction d with
  | nil => rfl
  | cons p rest ih =>
    obtain ⟨k', v'⟩ := p
    simp only [List.map_cons, List.mem_cons] at h
    push_neg at h
    simp [dictSet, Ne.symm h.1, ih h.2]

theorem dictSet_mem_preserve {α β : Type} [DecidableEq α] (d : List (α × β))
    (k0 : α) (e : β) (k : α) (v : β) (hmem : (k0, e) ∈ d) (hne : k0 ≠ k) :
    (k0, e) ∈ dictSet d k v := by
  induction d with
  | nil => cases hmem
  | cons p rest ih =>
    obtain ⟨k', v'⟩ := p
    rw [dictSet]
    by_cases hk : k' = k
    · subst hk
      simp only [if_pos rfl]
      cases hmem with
      | head => exact absurd rfl hne
      | tail _ h => exact List.mem_cons_of_mem _ h
    · simp only [if_neg hk]
      cases hmem with
      | head => exact List.mem_cons_self _ _
      | tail _ h => exact List.mem_cons_of_mem _ (ih h)

theorem mem_dictSet {α β : Type} [DecidableEq α] (d : List (α × β))
    (k : α) (v : β) (k0 : α) (e : β) (h : (k0, e) ∈ dictSet d k v) :
    (k0, e) ∈ d ∨ (k0 = k ∧ e = v) := by
  induction d with
  | nil =>
    rw [dictSet] at h
    cases h with
    | head => right; exact ⟨rfl, rfl⟩
    | tail _ h => cases h
  | cons p rest ih =>
    obtain ⟨k', v'⟩ := p
    rw [dictSet] at h
    by_cases hk : k' = k
    · rw [if_pos hk] at h
      cases h with
      | head => right; exact ⟨rfl, rfl⟩
      | tail _ h => left; exact List.mem_cons_of_mem _ h
    · rw [if_neg hk] at h
      cases h with
      | head => left; exact List.mem_cons_self _ _
      | tail _ h =>
        rcases ih h with h | h
        · left; exact List.mem_cons_of_mem _ h
        · right; exact h

theorem createLoop_ops (size : TaskData → Nat) (l : List TaskData) :
    ∀ pos idx ops, (createLoop size l pos idx ops).2.2 =
      ops ++ l.map (fun t => FsOp.write (size t)) := by
  induction l with
  | nil => intro pos idx ops; simp [createLoop]
  | cons t rest ih =>
    intro pos idx ops
    simp [createLoop, ih]

theorem createLoop_index (size : TaskData → Nat) (l : List TaskData) :
    ∀ pos idx ops, (∀ t ∈ l, t.task_id ∉ idx.map Prod.fst) →
      (l.map TaskData.task_id).Nodup →
      (createLoop size l pos idx ops).2.1 = idx ++ builtEntries size l pos := by
  induction l with
  | nil => intro pos idx ops _ _; simp [createLoop, builtEntries]
  | cons t rest ih =>
    intro pos idx ops hdisj hnd
    rw [createLoop, builtEntries]
    rw [dictSet_append _ _ _ (hdisj t (List.mem_cons_self _ _))]
    rw [List.map_cons, List.nodup_cons] at hnd
    rw [ih _ _ _ ?_ hnd.2]
    · simp
    · intro u hu
      simp only [List.map_append, List.mem_append, List.map_cons]
      push_neg
      refine ⟨hdisj u (List.mem_cons_of_mem _ hu), ?_⟩
      simp only [List.map_nil, List.mem_singleton]
      exact fun hc => hnd.1 (hc ▸ List.mem_map_of_mem TaskData.task_id hu)

theorem mem_createLoop_stale (size : TaskData → Nat) (l : List TaskData) :
    ∀ pos idx ops (k : String) (e : IndexEntry), (k, e) ∈ idx →
      k ∉ l.map TaskData.task_id →
      (k, e) ∈ (createLoop size l pos idx ops).2.1 := by
  induction l with
  | nil => intro pos idx ops k e hmem _; exact hmem
  | cons t rest ih =>
    intro pos idx ops k e hmem hnotin
    simp only [List.map_cons, List.mem_cons] at hnotin
    push_neg at hnotin
    rw [createLoop]
    exact ih _ _ _ _ _ (dictSet_mem_preserve _ _ _ _ _ hmem hnotin.1) hnotin.2

theorem mem_createLoop_bound (size : TaskData → Nat) (l : List TaskData) :
    ∀ pos idx ops (k : String) (e : IndexEntry),
      (k, e) ∈ (createLoop size l pos idx ops).2.1 →
      (k, e) ∈ idx ∨
        ((∃ t ∈ l, e.size = size t) ∧ e.offset + e.size ≤ pos + (l.map size).sum) := by
  induction l with
  | nil => intro pos idx ops k e h; exact Or.inl h
  | cons t rest ih =>
    intro pos idx ops k e h
    rw [createLoop] at h
    rcases ih _ _ _ _ _ h with h' | ⟨⟨u, hu, hsz⟩, hb⟩
    · rcases mem_dictSet _ _ _ _ _ h' with h'' | ⟨rfl, rfl⟩
      · exact Or.inl h''
      · refine Or.inr ⟨⟨t, List.mem_cons_self _ _, rfl⟩, ?_⟩
        simp only [List.map_cons, List.sum_cons]
        omega
    · refine Or.inr ⟨⟨u, List.mem_cons_of_mem _ hu, hsz⟩, ?_⟩
      simp only [List.map_cons, List.sum_cons] at *
      omega

theorem builtEntries_map_snd_id (size : TaskData → Nat) (l : List TaskData) :
    ∀ pos, ((builtEntries size l pos).map Prod.snd).map IndexEntry.task_id =
      l.map TaskData.task_id := by
  induction l with
  | nil => intro pos; rfl
  | cons t rest ih => intro pos; simp [builtEntries, ih]

theorem pad36_length (b : List Nat) : (pad36 b).length = 36 := by
  simp only [pad36, List.length_append, List.length_take, List.length_replicate]
  omega

theorem indexEntry_pack_length (e : IndexEntry)
    (h1 : e.size < 2 ^ 32) (h2 : e.offset < 2 ^ 64) :
    (IndexEntry.pack e).map List.length = some IndexEntry.SIZE := by
  rw [IndexEntry.pack, if_pos ⟨h1, h2⟩]
  simp [pad36_length, IndexEntry.SIZE]

/-- C8 (counterexample): creating a one-task package at destination
`out.bin` opens the destination itself for writing and performs no rename,
so the temp-path-and-rename protocol the claim describes is absent. -/
theorem create_no_temp_rename :
    ¬ writesViaTempAndRename
      (TranslationPackage.create (fun _ => 5) "out.bin" [] [⟨"t1", [], []⟩]) "out.bin" := by
  rintro ⟨tmp, hne, hopen, hren⟩
  have hops : (TranslationPackage.create (fun _ => 5) "out.bin" [] [⟨"t1", [], []⟩]).ops =
      [FsOp.openWrite "out.bin", FsOp.write 9, FsOp.write 5, FsOp.write 48,
       FsOp.seek 0, FsOp.write 9] := rfl
  rw [hops] at hren
  simp at hren

/-- C8 (amended): `create` opens its destination path directly for writing
— the first file operation of every `create` call is `open(file_path,
"wb")` — and its operation trace contains no rename; the header fix-up is
an in-place seek-and-rewrite, so a concurrent reader of the destination
path can observe the file mid-write. -/
theorem create_writes_destination_directly (size : TaskData → Nat) (path : String)
    (index₀ : List (String × IndexEntry)) (tasks : List TaskData) :
    (TranslationPackage.create size path index₀ tasks).ops.head? =
      some (FsOp.openWrite path)
    ∧ ∀ a b, FsOp.rename a b ∉ (TranslationPackage.create size path index₀ tasks).ops := by
  have hops : (TranslationPackage.create size path index₀ tasks).ops =
      ([FsOp.openWrite path, FsOp.write PackageHeader.SIZE]
        ++ tasks.map (fun t => FsOp.write (size t)))
      ++ (createLoop size tasks PackageHeader.SIZE index₀
            [FsOp.openWrite path, FsOp.write PackageHeader.SIZE]).2.1.map
          (fun _ => FsOp.write IndexEntry.SIZE)
      ++ [FsOp.seek 0, FsOp.write PackageHeader.SIZE] := by
    rw [TranslationPackage.create]
    rw [createLoop_ops]
  constructor
  · rw [hops]
    rfl
  · intro a b hmem
    rw [hops] at hmem
    simp at hmem

/-- C10: on a fresh `TranslationPackage` the written index region is
exactly one entry per task in task order at cumulative offsets, each
packing to 48 bytes; but `create` writes `self.index.values()`, so entries
already in the in-memory index whose key is not among the given tasks —
left over from an earlier `create` or `load_index` — are written out as
well. -/
theorem create_index_contents (size : TaskData → Nat) (path : String)
    (index₀ : List (String × IndexEntry)) (tasks : List TaskData)
    (hnd : (tasks.map TaskData.task_id).Nodup)
    (hsz : ∀ t ∈ tasks, size t < 2 ^ 32)
    (hoff : PackageHeader.SIZE + (tasks.map size).sum < 2 ^ 64) :
    (TranslationPackage.create size path [] tasks).writtenIndex =
        (builtEntries size tasks PackageHeader.SIZE).map Prod.snd
    ∧ (TranslationPackage.create size path [] tasks).writtenIndex.map IndexEntry.task_id =
        tasks.map TaskData.task_id
    ∧ (∀ e ∈ (TranslationPackage.create size path [] tasks).writtenIndex,
        (IndexEntry.pack e).map List.length = some IndexEntry.SIZE)
    ∧ (∀ k e, (k, e) ∈ index₀ → k ∉ tasks.map TaskData.task_id →
        e ∈ (TranslationPackage.create size path index₀ tasks).writtenIndex) := by
  have hidx : (createLoop size tasks PackageHeader.SIZE ([] : List (String × IndexEntry))
      [FsOp.openWrite path, FsOp.write PackageHeader.SIZE]).2.1 =
      builtEntries size tasks PackageHeader.SIZE := by
    rw [createLoop_index size tasks _ _ _ (by simp) hnd]
    rfl
  refine ⟨?_, ?_, ?_, ?_⟩
  · rw [TranslationPackage.create]
    simp only [hidx]
  · rw [TranslationPackage.create]
    simp only [hidx]
    exact builtEntries_map_snd_id size tasks PackageHeader.SIZE
  · intro e he
    rw [TranslationPackage.create] at he
    simp only [List.mem_map] at he
    obtain ⟨⟨k, e'⟩, hmem, rfl⟩ := he
    rcases mem_createLoop_bound size tasks _ _ _ _ _ hmem with h | ⟨⟨t, ht, hsz'⟩, hb⟩
    · cases h
    · exact indexEntry_pack_length e' (by rw [hsz']; exact hsz t ht) (by omega)
  · intro k e hmem hnotin
    rw [TranslationPackage.create]
    simp only [List.mem_map]
    exact ⟨(k, e), mem_createLoop_stale size tasks _ _ _ _ _ hmem hnotin, rfl⟩

theorem create_index_contents_witness :
    (TranslationPackage.create (fun _ => 5) "p.bin" []
        [⟨"a", [], []⟩, ⟨"b", [], []⟩]).writtenIndex.map IndexEntry.task_id = ["a", "b"]
    ∧ (⟨"old", 99, 1⟩ : IndexEntry) ∈
        (TranslationPackage.create (fun _ => 5) "p.bin" [("old", ⟨"old", 99, 1⟩)]
          [⟨"a", [], []⟩, ⟨"b", [], []⟩]).writtenIndex :=
  ⟨(create_index_contents (fun _ => 5) "p.bin" [("old", ⟨"old", 99, 1⟩)]
      [⟨"a", [], []⟩, ⟨"b", [], []⟩] (by decide) (by decide) (by decide)).2.1,
   (create_index_contents (fun _ => 5) "p.bin" [("old", ⟨"old", 99, 1⟩)]
      [⟨"a", [], []⟩, ⟨"b", [], []⟩] (by decide) (by decide) (by decide)).2.2.2
     "old" ⟨"old", 99, 1⟩ (by decide) (by decide)⟩

theorem getDict_setDict (t : TaskData) (src : TextSource)
    (d : List (LanguageCode × String)) : (t.setDict src d).getDict src = d := by
  cases src <;> rfl

theorem setDict_getDict_self (t : TaskData) (src : TextSource) :
    t.setDict src (t.getDict src) = t := by
  cases src <;> rfl

theorem setDict_setDict (t : TaskData) (src : TextSource)
    (d1 d2 : List (LanguageCode × String)) :
    (t.setDict src d1).setDict src d2 = t.setDict src d2 := by
  cases src <;> rfl

theorem add_translation_eq (t : TaskData) (src : TextSource)
    (k : LanguageCode) (v : String) :
    t.add_translation src k v = t.setDict src (dictSet (t.getDict src) k v) := by
  cases src <;> rfl

theorem unpackLangs_langDict (l : List (LanguageCode × String)) (src : TextSource) :
    ∀ t : TaskData, (l.map Prod.fst).Nodup →
      (∀ k ∈ l.map Prod.fst, k ∉ (t.getDict src).map Prod.fst) →
      unpackLangs (langDict l) src t = some (t.setDict src (t.getDict src ++ l)) := by
  induction l with
  | nil =>
    intro t _ _
    simp [langDict, unpackLangs, setDict_getDict_self]
  | cons p rest ih =>
    obtain ⟨k, v⟩ := p
    intro t hnd hdisj
    rw [List.map_cons, List.nodup_cons] at hnd
    have hk : k ∉ (t.getDict src).map Prod.fst :=
      hdisj k (by simp)
    have hstep : langDict ((k, v) :: rest) =
        PyVal.consDict k.value (PyVal.str v) (langDict rest) := rfl
    rw [hstep, unpackLangs, languageCode_ofString_value]
    show unpackLangs (langDict rest) src (t.add_translation src k v) =
      some (t.setDict src (t.getDict src ++ (k, v) :: rest))
    rw [add_translation_eq, dictSet_append _ _ _ hk]
    rw [ih (t.setDict src (t.getDict src ++ [(k, v)])) hnd.2 ?_]
    · rw [setDict_setDict, getDict_setDict]
      simp
    · intro k' hk'
      rw [getDict_setDict]
      simp only [List.map_append, List.mem_append, List.map_cons, List.map_nil,
        List.mem_singleton]
      push_neg
      refine ⟨hdisj k' (by simp [hk']), ?_⟩
      intro hc
      exact hnd.1 (hc ▸ hk')

/-- C6: decoding an encoded task-data record returns a record equal to the
original, for every `TaskData` whose per-source translation tables are
maps (no duplicated language key — the only shape `__init__` and
`add_translation` can produce). -/
theorem taskData_unpack_pack (t : TaskData)
    (h1 : (t.textTranslations.map Prod.fst).Nodup)
    (h2 : (t.audioTranslations.map Prod.fst).Nodup) :
    TaskData.unpack (TaskData.pack t) = some t := by
  obtain ⟨id, tt, ta⟩ := t
  have hmid : TaskData.setDict ⟨id, [], []⟩ TextSource.text
      (TaskData.getDict ⟨id, [], []⟩ TextSource.text ++ tt) = ⟨id, tt, []⟩ := by
    simp [TaskData.setDict, TaskData.getDict]
  have hend : TaskData.setDict ⟨id, tt, []⟩ TextSource.audio
      (TaskData.getDict ⟨id, tt, []⟩ TextSource.audio ++ ta) = ⟨id, tt, ta⟩ := by
    simp [TaskData.setDict, TaskData.getDict]
  calc TaskData.unpack (TaskData.pack ⟨id, tt, ta⟩)
      = (match unpackLangs (langDict tt) TextSource.text ⟨id, [], []⟩ with
         | none => none
         | some t' => unpackSources (.consDict "AUDIO" (langDict ta) .nilDict) t') := rfl
    _ = unpackSources (.consDict "AUDIO" (langDict ta) .nilDict) ⟨id, tt, []⟩ := by
          rw [unpackLangs_langDict tt TextSource.text ⟨id, [], []⟩ h1
            (by simp [TaskData.getDict]), hmid]
    _ = (match unpackLangs (langDict ta) TextSource.audio ⟨id, tt, []⟩ with
         | none => none
         | some t' => unpackSources PyVal.nilDict t') := rfl
    _ = unpackSources PyVal.nilDict ⟨id, tt, ta⟩ := by
          rw [unpackLangs_langDict ta TextSource.audio ⟨id, tt, []⟩ h2
            (by simp [TaskData.getDict]), hend]
    _ = some ⟨id, tt, ta⟩ := rfl

theorem taskData_unpack_pack_witness :
    TaskData.unpack (TaskData.pack ⟨"task-123",
      [(LanguageCode.zhCN, "你好世界"), (LanguageCode.enUS, "Hello World")],
      [(LanguageCode.zhCN, "语音识别的文本")]⟩) =
      some ⟨"task-123",
        [(LanguageCode.zhCN, "你好世界"), (LanguageCode.enUS, "Hello World")],
        [(LanguageCode.zhCN, "语音识别的文本")]⟩ :=
  taskData_unpack_pack _ (by decide) (by decide)

theorem char_toNat_valid (c : Char) :
    c.toNat < 0xD800 ∨ (0xDFFF < c.toNat ∧ c.toNat < 0x110000) := c.valid

theorem toNat_ofNat_valid (n : Nat)
    (h : n < 0xD800 ∨ (0xDFFF < n ∧ n < 0x110000)) : (Char.ofNat n).toNat = n := by
  rw [Char.ofNat, dif_pos h]
  rfl

theorem decodeOne_encodeChar (c : Char) (l : List Nat) :
    decodeOne (utf8EncodeChar c ++ l) = some (c, l) := by
  have hv : c.toNat < 0xD800 ∨ (0xDFFF < c.toNat ∧ c.toNat < 0x110000) := c.valid
  rw [utf8EncodeChar]
  by_cases h1 : c.toNat < 0x80
  · rw [if_pos h1]
    show decodeOne (c.toNat :: l) = some (c, l)
    simp only [decodeOne]
    rw [if_pos h1, Char.ofNat_toNat]
  · rw [if_neg h1]
    by_cases h2 : c.toNat < 0x800
    · rw [if_pos h2]
      show decodeOne ((0xC0 + c.toNat / 64) :: (0x80 + c.toNat % 64) :: l) = some (c, l)
      simp only [decodeOne]
      rw [if_neg (by omega), if_neg (by omega), if_pos (by omega)]
      show (if isCont (0x80 + c.toNat % 64) then
          some (Char.ofNat ((0xC0 + c.toNat / 64 - 0xC0) * 64 + (0x80 + c.toNat % 64 - 0x80)), l)
        else none) = some (c, l)
      rw [if_pos (by unfold isCont; omega)]
      have harg : (0xC0 + c.toNat / 64 - 0xC0) * 64 + (0x80 + c.toNat % 64 - 0x80)
          = c.toNat := by omega
      rw [harg, Char.ofNat_toNat]
    · rw [if_neg h2]
      by_cases h3 : c.toNat < 0x10000
      · rw [if_pos h3]
        show decodeOne ((0xE0 + c.toNat / 4096) :: (0x80 + c.toNat / 64 % 64)
            :: (0x80 + c.toNat % 64) :: l) = some (c, l)
        simp only [decodeOne]
        rw [if_neg (by omega), if_neg (by omega), if_neg (by omega),
          if_pos (by omega)]
        show (if isCont (0x80 + c.toNat / 64 % 64) ∧ isCont (0x80 + c.toNat % 64)
            ∧ ¬(0xE0 + c.toNat / 4096 = 0xE0 ∧ 0x80 + c.toNat / 64 % 64 < 0xA0)
            ∧ ¬(0xE0 + c.toNat / 4096 = 0xED ∧ 0xA0 ≤ 0x80 + c.toNat / 64 % 64) then
          some (Char.ofNat ((0xE0 + c.toNat / 4096 - 0xE0) * 4096
            + (0x80 + c.toNat / 64 % 64 - 0x80) * 64 + (0x80 + c.toNat % 64 - 0x80)), l)
        else none) = some (c, l)
        rw [if_pos (by unfold isCont; omega)]
        have harg : (0xE0 + c.toNat / 4096 - 0xE0) * 4096
            + (0x80 + c.toNat / 64 % 64 - 0x80) * 64 + (0x80 + c.toNat % 64 - 0x80)
            = c.toNat := by omega
        rw [harg, Char.ofNat_toNat]
      · rw [if_neg h3]
        show decodeOne ((0xF0 + c.toNat / 262144) :: (0x80 + c.toNat / 4096 % 64)
            :: (0x80 + c.toNat / 64 % 64) :: (0x80 + c.toNat % 64) :: l) = some (c, l)
        simp only [decodeOne]
        rw [if_neg (by omega), if_neg (by omega), if_neg (by omega),
          if_neg (by omega), if_pos (by omega)]
        show (if isCont (0x80 + c.toNat / 4096 % 64) ∧ isCont (0x80 + c.toNat / 64 % 64)
            ∧ isCont (0x80 + c.toNat % 64)
            ∧ ¬(0xF0 + c.toNat / 262144 = 0xF0 ∧ 0x80 + c.toNat / 4096 % 64 < 0x90)
            ∧ ¬(0xF0 + c.toNat / 262144 = 0xF4 ∧ 0x90 ≤ 0x80 + c.toNat / 4096 % 64) then
          some (Char.ofNat ((0xF0 + c.toNat / 262144 - 0xF0) * 262144
            + (0x80 + c.toNat / 4096 % 64 - 0x80) * 4096
            + (0x80 + c.toNat / 64 % 64 - 0x80) * 64 + (0x80 + c.toNat % 64 - 0x80)), l)
        else none) = some (c, l)
        rw [if_pos (by unfold isCont; omega)]
        have harg : (0xF0 + c.toNat / 262144 - 0xF0) * 262144
            + (0x80 + c.toNat / 4096 % 64 - 0x80) * 4096
            + (0x80 + c.toNat / 64 % 64 - 0x80) * 64 + (0x80 + c.toNat % 64 - 0x80)
            = c.toNat := by omega
        rw [harg, Char.ofNat_toNat]

theorem utf8EncodeChar_length (c : Char) :
    (utf8EncodeChar c).length =
      if c.toNat < 0x80 then 1 else if c.toNat < 0x800 then 2
      else if c.toNat < 0x10000 then 3 else 4 := by
  rw [utf8EncodeChar]
  split_ifs <;> simp

theorem utf8EncodeChar_length_pos (c : Char) : 1 ≤ (utf8EncodeChar c).length := by
  rw [utf8EncodeChar_length]
  split_ifs <;> omega

theorem decodeOne_length (l : List Nat) (c : Char) (rest : List Nat)
    (h : decodeOne l = some (c, rest)) :
    (utf8EncodeChar c).length + rest.length = l.length := by
  match l with
  | [] => simp [decodeOne] at h
  | [b] =>
    simp only [decodeOne] at h
    split_ifs at h with h1 h2 h3 h4 h5 <;> try cases h
    have ht : (Char.ofNat b).toNat = b := toNat_ofNat_valid b (Or.inl (by omega))
    rw [utf8EncodeChar_length, ht, if_pos h1]
    simp
  | [b, b2] =>
    simp only [decodeOne] at h
    split_ifs at h with h1 h2 h3 hc h4 h5 <;> try cases h
    · have ht : (Char.ofNat b).toNat = b := toNat_ofNat_valid b (Or.inl (by omega))
      rw [utf8EncodeChar_length, ht, if_pos h1]
      simp
    · unfold isCont at hc
      have ht : (Char.ofNat ((b - 0xC0) * 64 + (b2 - 0x80))).toNat =
          (b - 0xC0) * 64 + (b2 - 0x80) :=
        toNat_ofNat_valid _ (Or.inl (by omega))
      rw [utf8EncodeChar_length, ht, if_neg (by omega), if_pos (by omega)]
      simp
  | [b, b2, b3] =>
    simp only [decodeOne] at h
    split_ifs at h with h1 h2 h3 hc h4 hc3 h5 <;> try cases h
    · have ht : (Char.ofNat b).toNat = b := toNat_ofNat_valid b (Or.inl (by omega))
      rw [utf8EncodeChar_length, ht, if_pos h1]
      simp
    · unfold isCont at hc
      have ht : (Char.ofNat ((b - 0xC0) * 64 + (b2 - 0x80))).toNat =
          (b - 0xC0) * 64 + (b2 - 0x80) :=
        toNat_ofNat_valid _ (Or.inl (by omega))
      rw [utf8EncodeChar_length, ht, if_neg (by omega), if_pos (by omega)]
      simp
    · unfold isCont at hc3
      have ht : (Char.ofNat ((b - 0xE0) * 4096 + (b2 - 0x80) * 64 + (b3 - 0x80))).toNat =
          (b - 0xE0) * 4096 + (b2 - 0x80) * 64 + (b3 - 0x80) :=
        toNat_ofNat_valid _ (by omega)
      rw [utf8EncodeChar_length, ht, if_neg (by omega), if_neg (by omega),
        if_pos (by omega)]
      simp
  | b :: b2 :: b3 :: b4 :: r =>
    simp only [decodeOne] at h
    split_ifs at h with h1 h2 h3 hc h4 hc3 h5 hc4 <;> try cases h
    · have ht : (Char.ofNat b).toNat = b := toNat_ofNat_valid b (Or.inl (by omega))
      rw [utf8EncodeChar_length, ht, if_pos h1]
      simp only [List.length_cons]
      omega
    · unfold isCont at hc
      have ht : (Char.ofNat ((b - 0xC0) * 64 + (b2 - 0x80))).toNat =
          (b - 0xC0) * 64 + (b2 - 0x80) :=
        toNat_ofNat_valid _ (Or.inl (by omega))
      rw [utf8EncodeChar_length, ht, if_neg (by omega), if_pos (by omega)]
      simp only [List.length_cons]
      omega
    · unfold isCont at hc3
      have ht : (Char.ofNat ((b - 0xE0) * 4096 + (b2 - 0x80) * 64 + (b3 - 0x80))).toNat =
          (b - 0xE0) * 4096 + (b2 - 0x80) * 64 + (b3 - 0x80) :=
        toNat_ofNat_valid _ (by omega)
      rw [utf8EncodeChar_length, ht, if_neg (by omega), if_neg (by omega),
        if_pos (by omega)]
      simp only [List.length_cons]
      omega
    · unfold isCont at hc4
      have ht : (Char.ofNat ((b - 0xF0) * 262144 + (b2 - 0x80) * 4096
          + (b3 - 0x80) * 64 + (b4 - 0x80))).toNat =
          (b - 0xF0) * 262144 + (b2 - 0x80) * 4096 + (b3 - 0x80) * 64 + (b4 - 0x80) :=
        toNat_ofNat_valid _ (by omega)
      rw [utf8EncodeChar_length, ht, if_neg (by omega), if_neg (by omega),
        if_neg (by omega)]
      simp only [List.length_cons]
      omega

theorem utf8DecodeFuel_step (l : List Nat) (hne : l ≠ []) (f : Nat) :
    utf8DecodeFuel (f + 1) l =
      match decodeOne l with
      | none => none
      | some (c, r) => (utf8DecodeFuel f r).map (fun cs => c :: cs) := by
  match l with
  | [] => exact absurd rfl hne
  | b :: r => rfl

theorem utf8DecodeFuel_eq (f : Nat) : ∀ l : List Nat, l.length ≤ f →
    utf8DecodeFuel f l = utf8Decode l := by
  induction f using Nat.strong_induction_on with
  | _ f ih =>
    intro l hl
    match f, l with
    | 0, [] => rfl
    | g + 1, [] => rfl
    | 0, b :: r => simp at hl
    | g + 1, b :: r =>
      simp only [List.length_cons] at hl
      cases hdec : decodeOne (b :: r) with
      | none =>
        rw [utf8DecodeFuel_step _ (by simp) g]
        rw [utf8Decode]
        simp only [List.length_cons]
        rw [utf8DecodeFuel_step _ (by simp) r.length]
        simp only [hdec]
      | some pr =>
        obtain ⟨c, r'⟩ := pr
        have hlen := decodeOne_length _ _ _ hdec
        have hpos := utf8EncodeChar_length_pos c
        simp only [List.length_cons] at hlen
        rw [utf8DecodeFuel_step _ (by simp) g]
        rw [utf8Decode]
        simp only [List.length_cons]
        rw [utf8DecodeFuel_step _ (by simp) r.length]
        simp only [hdec]
        rw [ih g (by omega) r' (by omega), ih r.length (by omega) r' (by omega)]

theorem utf8Decode_encodeList_append (cs : List Char) (l : List Nat) :
    utf8Decode (utf8EncodeList cs ++ l) = (utf8Decode l).map (fun ds => cs ++ ds) := by
  induction cs with
  | nil =>
    simp only [utf8EncodeList, List.nil_append]
    cases utf8Decode l <;> simp
  | cons c cs ih =>
    have hpos := utf8EncodeChar_length_pos c
    rw [utf8EncodeList, List.append_assoc]
    have hne : utf8EncodeChar c ++ (utf8EncodeList cs ++ l) ≠ [] := by
      intro hc
      have hlc := congrArg List.length hc
      simp only [List.length_append, List.length_nil] at hlc
      omega
    obtain ⟨K, hK⟩ : ∃ K, (utf8EncodeChar c ++ (utf8EncodeList cs ++ l)).length = K + 1 := by
      refine ⟨(utf8EncodeChar c ++ (utf8EncodeList cs ++ l)).length - 1, ?_⟩
      simp only [List.length_append]
      omega
    rw [utf8Decode, hK, utf8DecodeFuel_step _ hne K]
    simp only [decodeOne_encodeChar]
    rw [utf8DecodeFuel_eq K _ (by simp only [List.length_append] at hK ⊢; omega)]
    rw [ih]
    cases utf8Decode l <;> simp

theorem utf8Decode_encodeList (cs : List Char) :
    utf8Decode (utf8EncodeList cs) = some cs := by
  have h := utf8Decode_encodeList_append cs []
  simpa [utf8Decode, utf8DecodeFuel] using h

theorem utf8DecodeFuel_length (f : Nat) : ∀ (l : List Nat) (cs : List Char),
    utf8DecodeFuel f l = some cs → utf8LenList cs = l.length := by
  induction f with
  | zero =>
    intro l cs h
    match l with
    | [] => cases h; rfl
    | b :: r => cases h
  | succ g ih =>
    intro l cs h
    match l with
    | [] => cases h; rfl
    | b :: r =>
      rw [utf8DecodeFuel_step _ (by simp) g] at h
      cases hdec : decodeOne (b :: r) with
      | none => simp only [hdec] at h; cases h
      | some pr =>
        obtain ⟨c, r'⟩ := pr
        simp only [hdec] at h
        cases hrec : utf8DecodeFuel g r' with
        | none => simp only [hrec, Option.map_none'] at h; cases h
        | some cs' =>
          rw [hrec] at h
          simp only [Option.map_some', Option.some.injEq] at h
          subst h
          have h1 := decodeOne_length _ _ _ hdec
          have h2 := ih r' cs' hrec
          simp only [utf8LenList, utf8EncodeList, List.length_append,
            List.length_cons] at h1 h2 ⊢
          omega

theorem utf8Decode_length (l : List Nat) (cs : List Char)
    (h : utf8Decode l = some cs) : utf8LenList cs = l.length :=
  utf8DecodeFuel_length l.length l cs h

theorem head?_dropWhile_ne {α : Type} (p : α → Bool) (l : List α) :
    ∀ c, (l.dropWhile p).head? = some c → p c = false := by
  induction l with
  | nil => intro c h; cases h
  | cons a r ih =>
    intro c h
    rw [List.dropWhile_cons] at h
    by_cases ha : p a
    · rw [if_pos ha] at h
      exact ih c h
    · rw [if_neg ha] at h
      cases h
      simpa using ha

theorem dropWhile_append_of_all {α : Type} (p : α → Bool) (xs ys : List α)
    (h : ∀ x ∈ xs, p x = true) : (xs ++ ys).dropWhile p = ys.dropWhile p := by
  induction xs with
  | nil => rfl
  | cons a r ih =>
    rw [List.cons_append, List.dropWhile_cons, if_pos (h a (by simp))]
    exact ih (fun x hx => h x (by simp [hx]))

theorem dropWhile_of_head_neg {α : Type} (p : α → Bool) (l : List α) (c : α)
    (hh : l.head? = some c) (hc : p c = false) : l.dropWhile p = l := by
  cases l with
  | nil => rfl
  | cons a r =>
    cases hh
    rw [List.dropWhile_cons, if_neg (by simp [hc])]

theorem dropWhile_decomp {α : Type} (p : α → Bool) (l : List α) :
    ∃ pre, l = pre ++ l.dropWhile p ∧ ∀ x ∈ pre, p x = true :=
  ⟨l.takeWhile p, (List.takeWhile_append_dropWhile p l).symm,
    fun _ hx => List.mem_takeWhile_imp hx⟩

theorem dropTrailNul_decomp (m : List Char) :
    ∃ suf, m = dropTrailNul m ++ suf ∧ ∀ x ∈ suf, x = nulChar := by
  obtain ⟨pre, hpre, hall⟩ :=
    dropWhile_decomp (fun c => c = nulChar) m.reverse
  refine ⟨pre.reverse, ?_, ?_⟩
  · rw [dropTrailNul]
    conv_lhs => rw [← m.reverse_reverse, hpre]
    rw [List.reverse_append]
  · intro x hx
    have := hall x (by simpa using hx)
    simpa using this

theorem stripNul_decomp (l : List Char) :
    ∃ pre suf, l = pre ++ stripNulChars l ++ suf
      ∧ (∀ x ∈ pre, x = nulChar) ∧ (∀ x ∈ suf, x = nulChar) := by
  obtain ⟨pre, hpre, hallp⟩ :=
    dropWhile_decomp (fun c => c = nulChar) l
  obtain ⟨suf, hsuf, halls⟩ :=
    dropTrailNul_decomp (l.dropWhile (fun c => c = nulChar))
  refine ⟨pre, suf, ?_, ?_, halls⟩
  · rw [stripNulChars, List.append_assoc, ← hsuf]
    exact hpre
  · intro x hx
    have := hallp x hx
    simpa using this

theorem stripNul_head (l : List Char) (c : Char)
    (h : (stripNulChars l).head? = some c) : c ≠ nulChar := by
  rw [stripNulChars] at h
  obtain ⟨suf, hsuf, _⟩ :=
    dropTrailNul_decomp (l.dropWhile (fun c => c = nulChar))
  cases hd : dropTrailNul (l.dropWhile (fun c => c = nulChar)) with
  | nil => rw [hd] at h; cases h
  | cons a t =>
    rw [hd] at h
    cases h
    have hh : (l.dropWhile (fun c => c = nulChar)).head? = some c := by
      rw [hsuf, hd]
      rfl
    have := head?_dropWhile_ne _ _ _ hh
    simpa using this

theorem stripNul_getLast (l : List Char) (c : Char)
    (h : (stripNulChars l).getLast? = some c) : c ≠ nulChar := by
  rw [stripNulChars, dropTrailNul, List.getLast?_reverse] at h
  have := head?_dropWhile_ne _ _ _ h
  simpa using this

theorem dropWhile_replicate_nul (k : Nat) :
    (List.replicate k nulChar).dropWhile (fun c => c = nulChar) = [] := by
  induction k with
  | zero => rfl
  | succ n ih => rw [List.replicate_succ, List.dropWhile_cons, if_pos (by simp)]; exact ih

theorem stripNul_clean (cs : List Char) (k : Nat)
    (hh : cs.head? ≠ some nulChar)
    (hl : cs.getLast? ≠ some nulChar) :
    stripNulChars (cs ++ List.replicate k nulChar) = cs := by
  cases cs with
  | nil =>
    rw [List.nil_append, stripNulChars, dropWhile_replicate_nul]
    rfl
  | cons a t =>
    have ha : ¬(a = nulChar) := fun hc => hh (by simp [hc])
    rw [stripNulChars, List.cons_append, List.dropWhile_cons,
      if_neg (by simpa using ha), dropTrailNul]
    rw [← List.cons_append a t (List.replicate k nulChar)]
    rw [List.reverse_append, List.reverse_replicate]
    rw [dropWhile_append_of_all _ _ _ (fun x hx => by
      simp only [List.mem_replicate] at hx
      simp [hx.2])]
    have hlast : ∃ c, (a :: t).getLast? = some c := by
      cases t with
      | nil => exact ⟨a, rfl⟩
      | cons b u => exact ⟨(b :: u).getLast (by simp), by rw [List.getLast?_cons_cons,
          List.getLast?_eq_getLast _ (by simp)]⟩
    obtain ⟨c, hc⟩ := hlast
    have hcn : ¬(c = nulChar) := fun hcc => hl (hc.trans (by rw [hcc]))
    rw [dropWhile_of_head_neg _ _ c (by rw [List.head?_reverse]; exact hc)
      (by simpa using hcn)]
    rw [List.reverse_reverse]

theorem utf8EncodeList_append (a b : List Char) :
    utf8EncodeList (a ++ b) = utf8EncodeList a ++ utf8EncodeList b := by
  induction a with
  | nil => rfl
  | cons c r ih => simp [utf8EncodeList, ih]

theorem utf8EncodeChar_nul : utf8EncodeChar nulChar = [0] := rfl

theorem utf8EncodeList_replicate_nul (k : Nat) :
    utf8EncodeList (List.replicate k nulChar) = List.replicate k 0 := by
  induction k with
  | zero => rfl
  | succ n ih =>
    rw [List.replicate_succ, utf8EncodeList, utf8EncodeChar_nul, ih,
      List.replicate_succ]
    rfl

theorem utf8EncodeList_ascii (cs : List Char) (h : ∀ c ∈ cs, c.toNat < 0x80) :
    utf8EncodeList cs = cs.map Char.toNat := by
  induction cs with
  | nil => rfl
  | cons c r ih =>
    rw [utf8EncodeList, utf8EncodeChar, if_pos (h c (by simp)), List.map_cons,
      ih (fun x hx => h x (by simp [hx]))]
    rfl

theorem indexEntry_roundTrip_eq (e : IndexEntry)
    (h1 : e.size < 2 ^ 32) (h2 : e.offset < 2 ^ 64) :
    IndexEntry.roundTrip e =
      match utf8Decode (pad36 (utf8Encode e.task_id)) with
      | none => none
      | some cs => some ⟨String.mk (stripNulChars cs), e.offset, e.size⟩ := by
  rw [IndexEntry.roundTrip, IndexEntry.pack, if_pos ⟨h1, h2⟩]
  have hbind : (some (pad36 (utf8Encode e.task_id) ++ beBytes 4 e.size
      ++ beBytes 8 e.offset)).bind IndexEntry.unpack =
      IndexEntry.unpack (pad36 (utf8Encode e.task_id) ++ beBytes 4 e.size
      ++ beBytes 8 e.offset) := rfl
  rw [hbind, IndexEntry.unpack]
  have hlen : (pad36 (utf8Encode e.task_id) ++ beBytes 4 e.size
      ++ beBytes 8 e.offset).length = IndexEntry.SIZE := by
    simp [pad36_length, IndexEntry.SIZE]
  rw [if_pos hlen]
  have hdrop36 : (pad36 (utf8Encode e.task_id) ++ beBytes 4 e.size
      ++ beBytes 8 e.offset).drop 36 = beBytes 4 e.size ++ beBytes 8 e.offset := by
    rw [List.append_assoc]
    exact List.drop_left' (pad36_length _)
  have htake36 : (pad36 (utf8Encode e.task_id) ++ beBytes 4 e.size
      ++ beBytes 8 e.offset).take 36 = pad36 (utf8Encode e.task_id) := by
    rw [List.append_assoc]
    exact List.take_left' (pad36_length _)
  have hdrop40 : (pad36 (utf8Encode e.task_id) ++ beBytes 4 e.size
      ++ beBytes 8 e.offset).drop 40 = beBytes 8 e.offset := by
    have h' : (40 : Nat) = 36 + 4 := by norm_num
    rw [h', ← List.drop_drop, hdrop36]
    exact List.drop_left' (beBytes_length 4 e.size)
  rw [htake36, hdrop40, hdrop36]
  rw [List.take_left' (beBytes_length 4 e.size)]
  rw [beVal_beBytes 8 e.offset (by norm_num at h2 ⊢; omega),
    beVal_beBytes 4 e.size (by norm_num at h1 ⊢; omega)]

theorem indexEntry_roundTrip_short (e : IndexEntry)
    (hsz : e.size < 2 ^ 32) (hoff : e.offset < 2 ^ 64)
    (hn : utf8Len e.task_id ≤ 36) :
    IndexEntry.roundTrip e = some ⟨String.mk (stripNulChars (e.task_id.data
      ++ List.replicate (36 - utf8Len e.task_id) nulChar)), e.offset, e.size⟩ := by
  rw [indexEntry_roundTrip_eq e hsz hoff]
  have hpad : pad36 (utf8Encode e.task_id) =
      utf8EncodeList (e.task_id.data
        ++ List.replicate (36 - utf8Len e.task_id) nulChar) := by
    have he : utf8Encode e.task_id = utf8EncodeList e.task_id.data := rfl
    rw [pad36, he,
      List.take_of_length_le (show (utf8EncodeList e.task_id.data).length ≤ 36 from hn)]
    rw [utf8EncodeList_append, utf8EncodeList_replicate_nul]
    rfl
  rw [hpad, utf8Decode_encodeList]

theorem indexEntry_roundTrip_ascii_long (e : IndexEntry)
    (hsz : e.size < 2 ^ 32) (hoff : e.offset < 2 ^ 64)
    (hascii : ∀ c ∈ e.task_id.data, c.toNat < 0x80)
    (hlong : 36 < e.task_id.data.length) :
    IndexEntry.roundTrip e =
      some ⟨String.mk (stripNulChars (e.task_id.data.take 36)), e.offset, e.size⟩ := by
  rw [indexEntry_roundTrip_eq e hsz hoff]
  have he : utf8Encode e.task_id = e.task_id.data.map Char.toNat :=
    utf8EncodeList_ascii _ hascii
  have hpad : pad36 (utf8Encode e.task_id) = utf8EncodeList (e.task_id.data.take 36) := by
    rw [pad36, he]
    have hz : 36 - (e.task_id.data.map Char.toNat).length = 0 := by
      simp only [List.length_map]
      omega
    rw [hz]
    simp only [List.replicate_zero, List.append_nil]
    rw [← List.map_take,
      ← utf8EncodeList_ascii _ (fun c hc => hascii c (List.take_subset _ _ hc))]
  rw [hpad, utf8Decode_encodeList]

/-- C9 (amended): `pack` fixes the id field at 36 bytes (NUL padding or
silent truncation) and `unpack` strips NUL bytes from both ends, so the
round trip reproduces `e` exactly when the id encodes to at most 36 bytes
and neither starts nor ends with a NUL character; an over-long ASCII id
round-trips to its 36-byte truncation (NUL-stripped) instead of failing,
while an over-long id whose truncation splits a multi-byte character makes
`unpack` raise a decode error. -/
theorem indexEntry_roundTrip_characterisation (e : IndexEntry)
    (hsz : e.size < 2 ^ 32) (hoff : e.offset < 2 ^ 64) :
    (IndexEntry.roundTrip e = some e ↔
      utf8Len e.task_id ≤ 36
      ∧ e.task_id.data.head? ≠ some nulChar
      ∧ e.task_id.data.getLast? ≠ some nulChar)
    ∧ ((∀ c ∈ e.task_id.data, c.toNat < 0x80) → 36 < e.task_id.data.length →
      IndexEntry.roundTrip e =
        some ⟨String.mk (stripNulChars (e.task_id.data.take 36)), e.offset, e.size⟩) := by
  refine ⟨?_, fun hascii hlong => indexEntry_roundTrip_ascii_long e hsz hoff hascii hlong⟩
  by_cases hn : utf8Len e.task_id ≤ 36
  · rw [indexEntry_roundTrip_short e hsz hoff hn]
    constructor
    · intro hrt
      simp only [Option.some.injEq] at hrt
      have hdata : stripNulChars (e.task_id.data
          ++ List.replicate (36 - utf8Len e.task_id) nulChar) = e.task_id.data :=
        congrArg String.data (congrArg IndexEntry.task_id hrt)
      refine ⟨hn, fun hcontra => ?_, fun hcontra => ?_⟩
      · exact stripNul_head _ nulChar (by rw [hdata]; exact hcontra) rfl
      · exact stripNul_getLast _ nulChar (by rw [hdata]; exact hcontra) rfl
    · rintro ⟨_, hh, hl⟩
      rw [stripNul_clean e.task_id.data _ hh hl]
  · push_neg at hn
    constructor
    · intro hrt
      exfalso
      have hn' : 36 < (utf8Encode e.task_id).length := hn
      rw [indexEntry_roundTrip_eq e hsz hoff] at hrt
      have hpad : pad36 (utf8Encode e.task_id) = (utf8Encode e.task_id).take 36 := by
        rw [pad36, show 36 - (utf8Encode e.task_id).length = 0 from by omega]
        simp only [List.replicate_zero, List.append_nil]
      rw [hpad] at hrt
      cases hdec : utf8Decode ((utf8Encode e.task_id).take 36) with
      | none => simp [hdec] at hrt
      | some cs =>
        simp only [hdec, Option.some.injEq] at hrt
        have hdata : stripNulChars cs = e.task_id.data :=
          congrArg String.data (congrArg IndexEntry.task_id hrt)
        have hlen36 : utf8LenList cs = 36 := by
          have h := utf8Decode_length _ _ hdec
          rw [List.length_take] at h
          omega
        obtain ⟨pre, suf, hdc, _, _⟩ := stripNul_decomp cs
        have hsum : utf8LenList cs =
            utf8LenList pre + utf8LenList (stripNulChars cs) + utf8LenList suf := by
          conv_lhs => rw [hdc]
          simp only [utf8LenList, utf8EncodeList_append, List.length_append]
        have hid : utf8LenList (stripNulChars cs) = utf8Len e.task_id := by
          rw [hdata]
          rfl
        omega
    · rintro ⟨hn', _, _⟩
      omega

theorem indexEntry_roundTrip_characterisation_witness :
    IndexEntry.roundTrip ⟨"abc", 7, 9⟩ = some ⟨"abc", 7, 9⟩ :=
  (indexEntry_roundTrip_characterisation ⟨"abc", 7, 9⟩ (by norm_num) (by norm_num)).1.mpr
    ⟨by decide, by decide, by decide⟩

/-- C9 (counterexample): the claim's biconditional fails at the id
`"\x00a"` — two bytes, not ending in NUL, yet the round trip strips the
leading NUL as well and returns `"a"` — and its truncation clause fails at
the 37-byte id `"a" ++ "é"*18`, whose 36-byte cut splits the final
two-byte character so `unpack` fails to decode instead of returning a
truncated id. -/
theorem indexEntry_claim_counterexample :
    (utf8Len (String.mk [Char.ofNat 0, 'a']) ≤ 36
      ∧ (String.mk [Char.ofNat 0, 'a']).data.getLast? ≠ some (Char.ofNat 0)
      ∧ IndexEntry.roundTrip ⟨String.mk [Char.ofNat 0, 'a'], 0, 0⟩ ≠
          some ⟨String.mk [Char.ofNat 0, 'a'], 0, 0⟩)
    ∧ (36 < utf8Len (String.mk ('a' :: List.replicate 18 'é'))
      ∧ IndexEntry.roundTrip ⟨String.mk ('a' :: List.replicate 18 'é'), 0, 0⟩ = none) := by
  refine ⟨⟨by decide, by decide, by decide⟩, by decide, by decide⟩
